import Mathlib

/-
Verification of the placeholder-expansion engine of `aws-cft/cfngen.py`.

The embedding models lines and file contents as `List Char`; the file system
is a partial map from paths to raw file contents.  Machine-level concerns
(UTF-8 decoding, OS errors other than a missing path) are outside the model.
Character classes are modelled over the ASCII range, which is the alphabet
the templates use.
-/

namespace Cfngen

/-- The left curly brace character (written via its code point). -/
def lcurly : Char := Char.ofNat 123

/-- The right curly brace character (written via its code point). -/
def rcurly : Char := Char.ofNat 125

/-- Whitespace as recognised by Python's regex class backslash-s and by
`str.strip` on the ASCII range: space, tab, newline, carriage return,
vertical tab and form feed. -/
def isPySpace (c : Char) : Bool :=
  c == ' ' || c == '\t' || c == '\n' || c == '\r' || c == '\x0b' || c == '\x0c'

/-- Word characters as recognised by Python's regex class backslash-w on
the ASCII range: letters, digits and underscore. -/
def isWordChar (c : Char) : Bool :=
  c.isAlphanum || c == '_'

/-- Python `str.lstrip()` with no argument: drop leading whitespace. -/
def pyLstrip (s : List Char) : List Char := s.dropWhile isPySpace

/-- Python `str.strip()` with no argument: drop leading and trailing
whitespace. -/
def pyStrip (s : List Char) : List Char :=
  ((s.dropWhile isPySpace).reverse.dropWhile isPySpace).reverse

/-- Python `str.lower()` on the ASCII range. -/
def pyLower (s : List Char) : List Char := s.map Char.toLower

/-- Helper for `linesKeep`: `acc` holds the (reversed) characters of the
line being accumulated. -/
def linesKeepAux : List Char → List Char → List (List Char)
  | acc, [] => if acc = [] then [] else [acc.reverse]
  | acc, c :: cs =>
    if c = '\n' then (acc.reverse ++ ['\n']) :: linesKeepAux [] cs
    else linesKeepAux (c :: acc) cs

/-- Python `list(file)`: split a file's raw content into lines, each line
keeping its trailing newline; the final line may lack one.  A zero-byte
file yields no lines. -/
def linesKeep (s : List Char) : List (List Char) := linesKeepAux [] s

/-- Fuel-driven core of Python `str.replace`: scan left to right, replacing
each (non-overlapping) occurrence of `pat` by `repl`.  One unit of fuel is
spent per step, and every step consumes at least one character of the
input, so `s.length` units suffice. -/
def pyReplaceFuel (pat repl : List Char) : Nat → List Char → List Char
  | 0, s => s
  | _ + 1, [] => []
  | fuel + 1, c :: cs =>
    if pat ≠ [] ∧ pat <+: (c :: cs) then
      repl ++ pyReplaceFuel pat repl fuel ((c :: cs).drop pat.length)
    else
      c :: pyReplaceFuel pat repl fuel cs

/-- Python `s.replace(pat, repl)` (for a non-empty `pat`, the only use in
the source). -/
def pyReplace (s pat repl : List Char) : List Char :=
  pyReplaceFuel pat repl s.length s

/-- Index of the first occurrence of `pat` in `s`, if any (for non-empty
`pat`).  Specification-side helper used to characterise `pyReplace`. -/
def findOcc (pat : List Char) : List Char → Option Nat
  | [] => none
  | c :: cs =>
    if pat <+: (c :: cs) then some 0
    else (findOcc pat cs).map (fun i => i + 1)

/-- Fuel-driven specification-side deletion function: repeatedly delete the
first occurrence of `pat`, continuing after the deleted occurrence. -/
def deleteOccFuel (pat : List Char) : Nat → List Char → List Char
  | 0, s => s
  | fuel + 1, s =>
    match findOcc pat s with
    | none => s
    | some i => s.take i ++ deleteOccFuel pat fuel (s.drop (i + pat.length))

/-- Delete every left-to-right non-overlapping occurrence of `pat` in `s`,
first occurrence first, resuming the scan after each deleted occurrence.
Specification-side description of `s.replace(pat, "")`. -/
def deleteOcc (s pat : List Char) : List Char := deleteOccFuel pat s.length s

/-- Match the regex fragment backslash-s* followed by two closing braces and
a double quote at the front of `cs`; return the rest on success.  As in the
source pattern, the whitespace run is maximal (a shorter run would put a
whitespace character where a brace is required). -/
def tryTail (cs : List Char) : Option (List Char) :=
  match cs.dropWhile isPySpace with
  | d0 :: d1 :: d2 :: r =>
    if d0 = rcurly ∧ d1 = rcurly ∧ d2 = '"' then some r else none
  | _ => none

/-- Backtracking loop for the extension group (backslash-w+): `w` is the
maximal word-character run after the dot; try taking `j + 1` of its
characters, longest first, each time requiring `tryTail` to succeed on
what remains. -/
def tryExtLen (w r : List Char) : Nat → Option (List Char × List Char)
  | 0 => none
  | j + 1 =>
    match tryTail (w.drop (j + 1) ++ r) with
    | some rest => some (w.take (j + 1), rest)
    | none => tryExtLen w r j

/-- Backtracking loop for the name group (backslash-S+): `run` is the
maximal non-whitespace run, `after` what follows it.  Try a name of
`k + 1` characters, longest first; the next character must be a literal
dot, after which the extension group must match. -/
def trySplitName (run after : List Char) :
    Nat → Option (List Char × List Char × List Char)
  | 0 => none
  | k + 1 =>
    match run.drop (k + 1) with
    | c :: restRun =>
      if c = '.' then
        let w := restRun.takeWhile isWordChar
        let r := restRun.dropWhile isWordChar ++ after
        match tryExtLen w r w.length with
        | some (ext, rest) => some (run.take (k + 1), ext, rest)
        | none => trySplitName run after k
      else trySplitName run after k
    | [] => trySplitName run after k

/-- Try to match the source's placeholder pattern anchored at the front of
`cs`: a double quote, two opening braces, optional whitespace, a
non-whitespace name, a literal dot, a word-character extension, optional
whitespace, two closing braces and a double quote.  On success, return the
name group, the extension group and the characters after the match. -/
def matchAt (cs : List Char) : Option (List Char × List Char × List Char) :=
  match cs with
  | c0 :: c1 :: c2 :: rest =>
    if c0 = '"' ∧ c1 = lcurly ∧ c2 = lcurly then
      let s := rest.dropWhile isPySpace
      let run := s.takeWhile (fun c => !isPySpace c)
      let after := s.dropWhile (fun c => !isPySpace c)
      trySplitName run after run.length
    else none
  | _ => none

/-- Python `re.search` for the placeholder pattern: try every start
position, leftmost first.  On success, return the name group, the
extension group and the whole matched substring (`match.group(0)`). -/
def searchPH : List Char → Option (List Char × List Char × List Char)
  | [] => none
  | c :: cs =>
    match matchAt (c :: cs) with
    | some (name, ext, rest) =>
      some (name, ext, (c :: cs).take ((c :: cs).length - rest.length))
    | none => searchPH cs

/-- The dictionary returned by `match_placeholder` on a hit. -/
structure PlaceholderMatch where
  line_truncated : List Char
  file_name : List Char
  indentation : Nat
deriving DecidableEq

/-- The module constant `INDENTATION_SIZE`. -/
def INDENTATION_SIZE : Nat := 2

/-- Translation of `match_placeholder`: search the line for the placeholder
pattern; on a hit return the line with every occurrence of the matched
substring removed (Python `str.replace`), the referenced file name
rebuilt from the two groups, and the leading-whitespace count of the line
plus `INDENTATION_SIZE`. -/
def match_placeholder (line : List Char) : Option PlaceholderMatch :=
  match searchPH line with
  | none => none
  | some (base, ext, placeholder) =>
    some {
      line_truncated := pyReplace line placeholder []
      file_name := base ++ '.' :: ext
      indentation := line.length - (pyLstrip line).length + INDENTATION_SIZE }

/-- The file system: a partial map from paths to raw file contents.  A path
on which it is `none` does not exist. -/
def FS : Type := List Char → Option (List Char)

/-- The two error conditions the engine can raise, each carrying the
offending path: Python's `FileNotFoundError` and the module's
`EmptyFileError`. -/
inductive CfnError where
  | fileNotFound : List Char → CfnError
  | emptyFile : List Char → CfnError
deriving DecidableEq

/-- `os.path.join` for two POSIX path components. -/
def os_path_join (a b : List Char) : List Char :=
  if b.head? = some '/' then b
  else if a = [] ∨ a.getLast? = some '/' then a ++ b
  else a ++ '/' :: b

/-- Translation of `read_file_content`: raise `FileNotFoundError` when the
path does not exist, otherwise return `list(file)`. -/
def read_file_content (fs : FS) (file_path : List Char) :
    Except CfnError (List (List Char)) :=
  match fs file_path with
  | none => .error (.fileNotFound file_path)
  | some raw => .ok (linesKeep raw)

/-- `os.path.splitext(p)[1]`: the extension including its dot, taken from
the last dot of the part after the last separator, provided the basename
is not made of leading dots only up to that dot. -/
def splitext_ext (p : List Char) : List Char :=
  let base := (p.reverse.takeWhile (fun c => c ≠ '/')).reverse
  let rest := base.dropWhile (fun c => c = '.')
  let tail := rest.reverse.takeWhile (fun c => c ≠ '.')
  if tail.length = rest.length then [] else '.' :: tail.reverse

/-- `os.path.splitext(file_name)[1].lstrip(".")`, as computed by
`process_placeholder`. -/
def file_extension (file_name : List Char) : List Char :=
  (splitext_ext file_name).dropWhile (fun c => c = '.')

/-- The list `["yaml", "yml"]` against which the lower-cased extension is
tested. -/
def yamlExts : List (List Char) :=
  [['y', 'a', 'm', 'l'], ['y', 'm', 'l']]

/-- Translation of the in-place mutation
`if not file_content[-1].endswith("\n"): file_content[-1] += "\n"`:
append a newline to the last line when it lacks one. -/
def fixLastNewline : List (List Char) → List (List Char)
  | [] => []
  | [l] => if l.getLast? = some '\n' then [l] else [l ++ ['\n']]
  | l :: l2 :: ls => l :: fixLastNewline (l2 :: ls)

/-- Translation of `process_placeholder`: read the referenced file, raise
`EmptyFileError` when it has no line or only whitespace lines, splice a
single-line file into the truncated line's newline, and otherwise format
the (newline-repaired) lines: for a yaml/yml extension emit the truncated
line unchanged, drop a leading document-start line, and indent each
non-blank line; for any other extension replace the truncated line's
newline by a block-scalar bar and indent each non-blank line. -/
def process_placeholder (fs : FS) (root file_name line_truncated : List Char)
    (indentation : Nat) : Except CfnError (List (List Char)) :=
  let file_path := os_path_join root file_name
  match read_file_content fs file_path with
  | .error e => .error e
  | .ok file_content =>
    let file_ext := file_extension file_name
    if file_content = [] ∨ ∀ l ∈ file_content, pyStrip l = [] then
      .error (.emptyFile file_path)
    else if file_content.length = 1 then
      .ok [pyReplace line_truncated ['\n']
            (pyReplace (file_content.headD []) ['\n'] [] ++ ['\n'])]
    else
      let fixed := fixLastNewline file_content
      if pyLower file_ext ∈ yamlExts then
        let kept :=
          if fixed.head? = some ['-', '-', '-', '\n'] then fixed.tail else fixed
        .ok (line_truncated ::
          kept.map (fun l =>
            if pyStrip l = [] then ['\n']
            else List.replicate indentation ' ' ++ l))
      else
        .ok (pyReplace line_truncated ['\n'] ['|', '\n'] ::
          fixed.map (fun l =>
            if pyLstrip l = [] then ['\n']
            else List.replicate indentation ' ' ++ l))

/-- Translation of `generate_processed_content`: process every line in
order; a located placeholder contributes the expander's lines, any other
line is kept verbatim; errors propagate and abort the run. -/
def generate_processed_content (fs : FS) (root : List Char) :
    List (List Char) → Except CfnError (List (List Char))
  | [] => .ok []
  | line :: rest =>
    match match_placeholder line with
    | some m =>
      match process_placeholder fs root m.file_name m.line_truncated
          m.indentation with
      | .error e => .error e
      | .ok ls =>
        match generate_processed_content fs root rest with
        | .error e => .error e
        | .ok rs => .ok (ls ++ rs)
    | none =>
      match generate_processed_content fs root rest with
      | .error e => .error e
      | .ok rs => .ok (line :: rs)

/-- Translation of `save_yaml_template`'s write: the bytes written are
`"".join(content)`. -/
def save_yaml_template (content : List (List Char)) : List Char :=
  content.flatten

/-- Translation of `process_templates` for one source directory: read
`template.yaml`, process its lines, and on success write the joined result
to the target path.  The successful result models the written file (path
and bytes); an error value models an aborted run in which nothing is
written. -/
def process_templates (fs : FS) (source_dir target_dir : List Char) :
    Except CfnError (List Char × List Char) :=
  let template_path := os_path_join source_dir "template.yaml".toList
  let output_path := os_path_join target_dir "template.yaml".toList
  match read_file_content fs template_path with
  | .error e => .error e
  | .ok yaml_content =>
    match generate_processed_content fs source_dir yaml_content with
    | .error e => .error e
    | .ok processed => .ok (output_path, save_yaml_template processed)

/-! ### Helper lemmas -/

theorem pyReplaceFuel_nil (pat repl : List Char) (fuel : Nat) :
    pyReplaceFuel pat repl fuel [] = [] := by
  cases fuel <;> rfl

theorem pyReplaceFuel_not_mem (c : Char) (repl : List Char) :
    ∀ (fuel : Nat) (s : List Char), c ∉ s →
      pyReplaceFuel [c] repl fuel s = s := by
  intro fuel
  induction fuel with
  | zero => intro s _; rfl
  | succ f ih =>
    intro s hs
    cases s with
    | nil => rfl
    | cons a as =>
      have hca : ¬([c] <+: (a :: as)) := by
        intro hpre
        rcases (List.cons_prefix_cons.mp hpre) with ⟨hac, _⟩
        exact hs (hac ▸ List.mem_cons_self c as)
      rw [pyReplaceFuel, if_neg (by tauto)]
      have : c ∉ as := fun h => hs (List.mem_cons_of_mem a h)
      rw [ih as this]

theorem pyReplace_not_mem (c : Char) (s repl : List Char) (h : c ∉ s) :
    pyReplace s [c] repl = s :=
  pyReplaceFuel_not_mem c repl s.length s h

theorem pyReplaceFuel_append (c : Char) (repl : List Char) :
    ∀ (t : List Char) (fuel : Nat), c ∉ t → t.length + 1 ≤ fuel →
      pyReplaceFuel [c] repl fuel (t ++ [c]) = t ++ repl := by
  intro t
  induction t with
  | nil =>
    intro fuel _ hfuel
    obtain ⟨f, rfl⟩ : ∃ f, fuel = f + 1 := ⟨fuel - 1, by omega⟩
    rw [List.nil_append, pyReplaceFuel,
      if_pos ⟨by simp, List.prefix_refl [c]⟩]
    simp [pyReplaceFuel_nil]
  | cons a t ih =>
    intro fuel ha hfuel
    obtain ⟨f, rfl⟩ : ∃ f, fuel = f + 1 := ⟨fuel - 1, by omega⟩
    have hac : ¬([c] <+: (a :: (t ++ [c]))) := by
      intro hpre
      rcases (List.cons_prefix_cons.mp hpre) with ⟨hca, _⟩
      exact ha (hca ▸ List.mem_cons_self c t)
    rw [List.cons_append, pyReplaceFuel, if_neg (by tauto)]
    have hct : c ∉ t := fun h => ha (List.mem_cons_of_mem a h)
    rw [ih f hct (by simpa using Nat.succ_le_succ_iff.mp hfuel), List.cons_append]

theorem pyReplace_append (c : Char) (t repl : List Char) (h : c ∉ t) :
    pyReplace (t ++ [c]) [c] repl = t ++ repl := by
  have : (t ++ [c]).length = t.length + 1 := by simp
  rw [pyReplace, this]
  exact pyReplaceFuel_append c repl t (t.length + 1) h (Nat.le_refl _)

theorem findOcc_bound (pat : List Char) :
    ∀ (s : List Char) (i : Nat), findOcc pat s = some i →
      i + pat.length ≤ s.length := by
  intro s
  induction s with
  | nil => intro i h; simp [findOcc] at h
  | cons c cs ih =>
    intro i h
    rw [findOcc] at h
    by_cases hp : pat <+: (c :: cs)
    · rw [if_pos hp] at h
      cases h
      simpa using hp.length_le
    · rw [if_neg hp] at h
      rcases Option.map_eq_some'.mp h with ⟨j, hj, rfl⟩
      have := ih j hj
      simp only [List.length_cons]
      omega

theorem findOcc_cons_ne (pat : List Char) (s : List Char) (hne : s ≠ [])
    (hp : ¬ pat <+: s) :
    findOcc pat s = (findOcc pat s.tail).map (fun i => i + 1) := by
  cases s with
  | nil => exact absurd rfl hne
  | cons c cs => rw [findOcc, if_neg hp]; rfl

theorem deleteOccFuel_nil (pat : List Char) (fuel : Nat) :
    deleteOccFuel pat fuel [] = [] := by
  cases fuel with
  | zero => rfl
  | succ f => rw [deleteOccFuel]; rfl

theorem deleteOccFuel_congr (pat : List Char) (hpat : pat ≠ []) :
    ∀ (f1 : Nat) (s : List Char) (f2 : Nat),
      s.length ≤ f1 → s.length ≤ f2 →
        deleteOccFuel pat f1 s = deleteOccFuel pat f2 s := by
  intro f1
  induction f1 with
  | zero =>
    intro s f2 h1 _
    have : s = [] := List.length_eq_zero.mp (Nat.le_zero.mp h1)
    subst this
    rw [deleteOccFuel_nil, deleteOccFuel_nil]
  | succ a ih =>
    intro s f2 h1 h2
    cases f2 with
    | zero =>
      have : s = [] := List.length_eq_zero.mp (Nat.le_zero.mp h2)
      subst this
      rw [deleteOccFuel_nil, deleteOccFuel_nil]
    | succ b =>
      rw [deleteOccFuel, deleteOccFuel]
      cases hocc : findOcc pat s with
      | none => rfl
      | some i =>
        have hbd := findOcc_bound pat s i hocc
        have hplen : 1 ≤ pat.length :=
          List.length_pos.mpr hpat
        have hdrop : (s.drop (i + pat.length)).length = s.length - (i + pat.length) := by
          simp
        show s.take i ++ deleteOccFuel pat a (s.drop (i + pat.length))
          = s.take i ++ deleteOccFuel pat b (s.drop (i + pat.length))
        rw [ih (s.drop (i + pat.length)) b (by omega) (by omega)]

theorem pyReplaceFuel_findOcc_none (pat repl : List Char) :
    ∀ (fuel : Nat) (s : List Char), findOcc pat s = none →
      pyReplaceFuel pat repl fuel s = s := by
  intro fuel
  induction fuel with
  | zero => intro s _; rfl
  | succ f ih =>
    intro s hocc
    cases s with
    | nil => rfl
    | cons c cs =>
      rw [findOcc] at hocc
      by_cases hp : pat <+: (c :: cs)
      · rw [if_pos hp] at hocc; cases hocc
      · rw [if_neg hp, Option.map_eq_none'] at hocc
        rw [pyReplaceFuel, if_neg (by tauto), ih cs hocc]

theorem pyReplaceFuel_eq_deleteOccFuel (pat : List Char) (hpat : pat ≠ []) :
    ∀ (fuel : Nat) (s : List Char), s.length ≤ fuel →
      pyReplaceFuel pat [] fuel s = deleteOccFuel pat fuel s := by
  intro fuel
  induction fuel with
  | zero =>
    intro s h
    have : s = [] := List.length_eq_zero.mp (Nat.le_zero.mp h)
    subst this; rfl
  | succ f ih =>
    intro s hlen
    cases s with
    | nil => rw [pyReplaceFuel_nil, deleteOccFuel_nil]
    | cons c cs =>
      have hplen : 1 ≤ pat.length := List.length_pos.mpr hpat
      by_cases hp : pat <+: (c :: cs)
      · rw [pyReplaceFuel, if_pos ⟨hpat, hp⟩, deleteOccFuel]
        have hocc : findOcc pat (c :: cs) = some 0 := by
          rw [findOcc, if_pos hp]
        rw [hocc]
        simp only [List.take_zero, List.nil_append, Nat.zero_add]
        have hlen' : cs.length + 1 ≤ f + 1 := by simpa using hlen
        exact ih ((c :: cs).drop pat.length)
          (by rw [List.length_drop]; simp only [List.length_cons]; omega)
      · rw [pyReplaceFuel, if_neg (by tauto), deleteOccFuel]
        have hocc : findOcc pat (c :: cs) = (findOcc pat cs).map (fun i => i + 1) := by
          rw [findOcc, if_neg hp]
        rw [hocc]
        cases hcs : findOcc pat cs with
        | none =>
          simp only [Option.map_none']
          rw [pyReplaceFuel_findOcc_none pat [] f cs hcs]
        | some j =>
          simp only [Option.map_some']
          have hbd := findOcc_bound pat cs j hcs
          have hcs_ne : cs ≠ [] := by
            intro h; subst h; simp [findOcc] at hcs
          have hcslen : 1 ≤ cs.length := List.length_pos.mpr hcs_ne
          have hcsf : cs.length ≤ f := by
            simpa using Nat.succ_le_succ_iff.mp hlen
          rw [ih cs hcsf]
          obtain ⟨g, rfl⟩ : ∃ g, f = g + 1 := ⟨f - 1, by omega⟩
          conv =>
            lhs
            rw [deleteOccFuel, hcs]
          have htake : (c :: cs).take (j + 1) = c :: cs.take j := rfl
          have hdrop : (c :: cs).drop (j + 1 + pat.length) = cs.drop (j + pat.length) := by
            have : j + 1 + pat.length = (j + pat.length) + 1 := by omega
            rw [this, List.drop_succ_cons]
          rw [htake, hdrop]
          simp only [List.cons_append, List.cons.injEq, true_and]
          congr 1
          have hdl : (cs.drop (j + pat.length)).length = cs.length - (j + pat.length) :=
            List.length_drop _ _
          exact deleteOccFuel_congr pat hpat g (cs.drop (j + pat.length)) (g + 1)
            (by omega) (by omega)

theorem pyReplace_eq_deleteOcc (s pat : List Char) (hpat : pat ≠ []) :
    pyReplace s pat [] = deleteOcc s pat :=
  pyReplaceFuel_eq_deleteOccFuel pat hpat s.length s (Nat.le_refl _)

theorem fixLastNewline_cons₂ (a b : List Char) (ls : List (List Char)) :
    fixLastNewline (a :: b :: ls) = a :: fixLastNewline (b :: ls) := rfl

theorem linesKeepAux_fixLast_nl :
    ∀ (s acc : List Char), ∀ l ∈ fixLastNewline (linesKeepAux acc s),
      l.getLast? = some '\n' := by
  intro s
  induction s with
  | nil =>
    intro acc l hl
    rw [linesKeepAux] at hl
    by_cases hacc : acc = []
    · rw [if_pos hacc] at hl; simp [fixLastNewline] at hl
    · rw [if_neg hacc] at hl
      rw [fixLastNewline] at hl
      by_cases hnl : (acc.reverse).getLast? = some '\n'
      · rw [if_pos hnl] at hl
        rcases List.mem_singleton.mp hl with rfl
        exact hnl
      · rw [if_neg hnl] at hl
        rcases List.mem_singleton.mp hl with rfl
        exact List.getLast?_concat _
  | cons c cs ih =>
    intro acc l hl
    rw [linesKeepAux] at hl
    by_cases hc : c = '\n'
    · rw [if_pos hc] at hl
      cases htail : linesKeepAux [] cs with
      | nil =>
        rw [htail, fixLastNewline, if_pos (List.getLast?_concat _)] at hl
        rcases List.mem_singleton.mp hl with rfl
        exact List.getLast?_concat _
      | cons y ys =>
        rw [htail, fixLastNewline_cons₂] at hl
        rcases List.mem_cons.mp hl with rfl | hmem
        · exact List.getLast?_concat _
        · exact ih [] l (by rw [htail]; exact hmem)
    · rw [if_neg hc] at hl
      exact ih (c :: acc) l hl

theorem linesKeep_fixLast_nl (raw : List Char) :
    ∀ l ∈ fixLastNewline (linesKeep raw), l.getLast? = some '\n' :=
  linesKeepAux_fixLast_nl raw []

theorem dropWhile_length_le (p : Char → Bool) (l : List Char) :
    (l.dropWhile p).length ≤ l.length := by
  conv_rhs => rw [← List.takeWhile_append_dropWhile (p := p) (l := l)]
  rw [List.length_append]
  omega

theorem tryTail_length_le (cs r : List Char) (h : tryTail cs = some r) :
    r.length + 3 ≤ cs.length := by
  rw [tryTail] at h
  split at h
  next d0 d1 d2 r2 heq =>
    split at h
    · cases h
      have hlen : (cs.dropWhile isPySpace).length ≤ cs.length :=
        dropWhile_length_le _ _
      rw [heq] at hlen
      simpa using hlen
    · cases h
  next => cases h

theorem tryExtLen_length_le (w r : List Char) :
    ∀ (f : Nat) (e rest : List Char), tryExtLen w r f = some (e, rest) →
      rest.length + 3 ≤ w.length + r.length := by
  intro f
  induction f with
  | zero => intro e rest h; cases h
  | succ j ih =>
    intro e rest h
    rw [tryExtLen] at h
    cases ht : tryTail (w.drop (j + 1) ++ r) with
    | some rest2 =>
      rw [ht] at h
      cases h
      have hb := tryTail_length_le _ _ ht
      rw [List.length_append, List.length_drop] at hb
      omega
    | none =>
      rw [ht] at h
      exact ih e rest h

theorem trySplitName_length_le (run after : List Char) :
    ∀ (f : Nat) (n e rest : List Char), trySplitName run after f = some (n, e, rest) →
      rest.length + 3 ≤ run.length + after.length := by
  intro f
  induction f with
  | zero => intro n e rest h; cases h
  | succ k ih =>
    intro n e rest h
    simp only [trySplitName] at h
    split at h
    next c restRun hd =>
      split at h
      · split at h
        next ext rest2 he =>
          cases h
          have hb := tryExtLen_length_le _ _ _ _ _ he
          have htw : (restRun.takeWhile isWordChar).length
              + (restRun.dropWhile isWordChar).length = restRun.length := by
            conv_rhs =>
              rw [← List.takeWhile_append_dropWhile (p := isWordChar) (l := restRun)]
            rw [List.length_append]
          rw [List.length_append] at hb
          have hdl : run.length - (k + 1) = restRun.length + 1 := by
            rw [← List.length_drop, hd]; rfl
          omega
        next => exact ih _ _ _ h
      · exact ih _ _ _ h
    next => exact ih _ _ _ h

theorem matchAt_rest_le (cs n e rest : List Char)
    (h : matchAt cs = some (n, e, rest)) :
    rest.length + 3 ≤ cs.length := by
  simp only [matchAt] at h
  split at h
  next c0 c1 c2 tl =>
    split at h
    · have hb := trySplitName_length_le _ _ _ _ _ _ h
      have hsum : ((tl.dropWhile isPySpace).takeWhile (fun c => !isPySpace c)).length
          + ((tl.dropWhile isPySpace).dropWhile (fun c => !isPySpace c)).length
          = (tl.dropWhile isPySpace).length := by
        conv_rhs =>
          rw [← List.takeWhile_append_dropWhile
            (p := fun c => !isPySpace c) (l := tl.dropWhile isPySpace)]
        rw [List.length_append]
      have hdw : (tl.dropWhile isPySpace).length ≤ tl.length :=
        dropWhile_length_le _ _
      simp only [List.length_cons]
      omega
    · cases h
  next => cases h

theorem searchPH_ph_ne_nil : ∀ (line n e ph : List Char),
    searchPH line = some (n, e, ph) → ph ≠ [] := by
  intro line
  induction line with
  | nil => intro n e ph h; cases h
  | cons c cs ih =>
    intro n e ph h
    rw [searchPH] at h
    cases hm : matchAt (c :: cs) with
    | none => rw [hm] at h; exact ih _ _ _ h
    | some v =>
      obtain ⟨n2, e2, rest2⟩ := v
      rw [hm] at h
      cases h
      have hb := matchAt_rest_le _ _ _ _ hm
      intro hnil
      have hlen : ((c :: cs).take ((c :: cs).length - rest2.length)).length = 0 := by
        rw [hnil]; rfl
      rw [List.length_take] at hlen
      simp only [List.length_cons] at hb hlen
      omega

theorem process_placeholder_single (fs : FS) (root name r l0 : List Char)
    (ind : Nat) (raw : List Char)
    (hf : fs (os_path_join root name) = some raw)
    (hl : linesKeep raw = [l0])
    (hnb : pyStrip l0 ≠ []) :
    process_placeholder fs root name r ind
      = .ok [pyReplace r ['\n'] (pyReplace l0 ['\n'] [] ++ ['\n'])] := by
  simp only [process_placeholder, read_file_content, hf, hl]
  rw [if_neg, if_pos]
  · rfl
  · rfl
  · rintro (h | h)
    · exact List.cons_ne_nil l0 [] h
    · exact hnb (h l0 (List.mem_singleton.mpr rfl))

theorem process_placeholder_multi_plain (fs : FS) (root name r raw : List Char)
    (ind : Nat)
    (hf : fs (os_path_join root name) = some raw)
    (h2 : 2 ≤ (linesKeep raw).length)
    (hnb : ¬ ∀ l ∈ linesKeep raw, pyStrip l = [])
    (hext : pyLower (file_extension name) ∉ yamlExts) :
    process_placeholder fs root name r ind
      = .ok (pyReplace r ['\n'] ['|', '\n'] ::
          (fixLastNewline (linesKeep raw)).map (fun l =>
            if pyLstrip l = [] then ['\n'] else List.replicate ind ' ' ++ l)) := by
  have hne : linesKeep raw ≠ [] := by
    intro h; rw [h] at h2; simp at h2
  simp only [process_placeholder, read_file_content, hf]
  rw [if_neg, if_neg, if_neg hext]
  · intro h; rw [h] at h2; omega
  · rintro (h | h)
    · exact hne h
    · exact hnb h

theorem process_placeholder_multi_yaml (fs : FS) (root name r raw : List Char)
    (ind : Nat)
    (hf : fs (os_path_join root name) = some raw)
    (h2 : 2 ≤ (linesKeep raw).length)
    (hnb : ¬ ∀ l ∈ linesKeep raw, pyStrip l = [])
    (hext : pyLower (file_extension name) ∈ yamlExts) :
    process_placeholder fs root name r ind
      = .ok (r ::
          (if (fixLastNewline (linesKeep raw)).head? = some ['-', '-', '-', '\n']
           then (fixLastNewline (linesKeep raw)).tail
           else fixLastNewline (linesKeep raw)).map (fun l =>
            if pyStrip l = [] then ['\n'] else List.replicate ind ' ' ++ l)) := by
  have hne : linesKeep raw ≠ [] := by
    intro h; rw [h] at h2; simp at h2
  simp only [process_placeholder, read_file_content, hf]
  rw [if_neg, if_neg, if_pos hext]
  · intro h; rw [h] at h2; omega
  · rintro (h | h)
    · exact hne h
    · exact hnb h

theorem fixLastNewline_head (ls : List (List Char)) (h2 : 2 ≤ ls.length) :
    (fixLastNewline ls).head? = ls.head? := by
  rcases ls with _ | ⟨a, _ | ⟨b, tl⟩⟩
  · rfl
  · simp at h2
  · rw [fixLastNewline_cons₂]; rfl

theorem formatted_getLast (ind : Nat) (p : List Char → Prop) [DecidablePred p]
    (x : List Char) (hx : x.getLast? = some '\n') :
    (if p x then ['\n'] else List.replicate ind ' ' ++ x).getLast? = some '\n' := by
  by_cases hb : p x
  · rw [if_pos hb]; rfl
  · rw [if_neg hb]
    have hxne : x ≠ [] := by intro h; rw [h] at hx; cases hx
    rw [List.getLast?_append_of_ne_nil _ hxne, hx]

/-! ### Claims -/

/-- C1 counterexample: the claim says the single-line content replaces the
placeholder in place, preserving text after the placeholder.  On the line
consisting of a placeholder followed by the text `b`, the locator's
remainder is `b` plus newline, and the expander returns `bX` plus newline:
the content `X` is spliced at the end of the line, after the trailing text
`b`, not at the placeholder's position (which would give `Xb`). -/
theorem C1_counterexample :
    match_placeholder "\"\x7b\x7b f.txt \x7d\x7d\"b\n".toList
        = some ⟨"b\n".toList, "f.txt".toList, 2⟩
    ∧ process_placeholder
        (fun p => if p = "r/f.txt".toList then some "X".toList else none)
        "r".toList "f.txt".toList "b\n".toList 2
        = .ok ["bX\n".toList]
    ∧ "bX\n".toList ≠ "Xb\n".toList := by
  refine ⟨by decide, rfl, by decide⟩

/-- C1 (amended): for a matched line whose remainder ends with a newline,
a single-line referenced file is spliced by replacing that trailing
newline: the expander returns one line equal to the remainder's text
followed by the newline-stripped content followed by a newline — the
content lands at the end of the line, after any text that followed the
placeholder. -/
theorem C1_single_line_end_splice (fs : FS) (root name t raw l0 : List Char)
    (ind : Nat)
    (ht : '\n' ∉ t)
    (hf : fs (os_path_join root name) = some raw)
    (hl : linesKeep raw = [l0])
    (hnb : pyStrip l0 ≠ []) :
    process_placeholder fs root name (t ++ ['\n']) ind
      = .ok [t ++ pyReplace l0 ['\n'] [] ++ ['\n']] := by
  rw [process_placeholder_single fs root name (t ++ ['\n']) l0 ind raw hf hl hnb,
    pyReplace_append '\n' t _ ht, List.append_assoc]

/-- C1 amended witness at a concrete input: template line remainder
`  key: ` plus newline, referenced single-line file containing `hello`. -/
theorem C1_single_line_end_splice_witness :
    '\n' ∉ "  key: ".toList
    ∧ (fun p => if p = "d/value.txt".toList then some "hello\n".toList else none)
        (os_path_join "d".toList "value.txt".toList) = some "hello\n".toList
    ∧ linesKeep "hello\n".toList = ["hello\n".toList]
    ∧ pyStrip "hello\n".toList ≠ []
    ∧ process_placeholder
        (fun p => if p = "d/value.txt".toList then some "hello\n".toList else none)
        "d".toList "value.txt".toList ("  key: ".toList ++ ['\n']) 4
      = .ok ["  key: ".toList ++ pyReplace "hello\n".toList ['\n'] [] ++ ['\n']] :=
  ⟨by decide, by decide, by decide, by decide,
    C1_single_line_end_splice
      (fun p => if p = "d/value.txt".toList then some "hello\n".toList else none)
      "d".toList "value.txt".toList "  key: ".toList "hello\n".toList
      "hello\n".toList 4 (by decide) (by decide) (by decide) (by decide)⟩

/-- C2 counterexample: the claim says only the first placeholder substring
is deleted and that further tokens textually identical to it stay
verbatim.  On a line holding the same placeholder twice, the code's
`str.replace` deletes both copies: the remainder is a space plus newline,
not the space plus the second token plus newline that the claim
predicts. -/
theorem C2_counterexample :
    match_placeholder
        "\"\x7b\x7b a.txt \x7d\x7d\" \"\x7b\x7b a.txt \x7d\x7d\"\n".toList
      = some ⟨" \n".toList, "a.txt".toList, 2⟩
    ∧ " \n".toList ≠ " \"\x7b\x7b a.txt \x7d\x7d\"\n".toList := by
  refine ⟨by decide, by decide⟩

/-- C2 (amended): the locator honors only the first match for the file name
and indentation, but the remainder is the input line with every
left-to-right non-overlapping occurrence of the first matched placeholder
substring deleted (`deleteOcc`); text not part of such an occurrence —
including placeholder tokens not textually identical to the first match —
is left verbatim. -/
theorem C2_remainder_removes_every_copy (line n e ph : List Char)
    (m : PlaceholderMatch)
    (hm : match_placeholder line = some m)
    (hs : searchPH line = some (n, e, ph)) :
    m.line_truncated = deleteOcc line ph ∧ m.file_name = n ++ '.' :: e := by
  rw [match_placeholder, hs] at hm
  cases hm
  exact ⟨pyReplace_eq_deleteOcc line ph (searchPH_ph_ne_nil line n e ph hs), rfl⟩

/-- C2 amended witness at a concrete input: a line holding the same
placeholder twice; both copies are deleted by `deleteOcc`. -/
theorem C2_remainder_removes_every_copy_witness :
    match_placeholder
        "\"\x7b\x7b a.txt \x7d\x7d\" \"\x7b\x7b a.txt \x7d\x7d\"x\n".toList
      = some ⟨" x\n".toList, "a.txt".toList, 2⟩
    ∧ searchPH "\"\x7b\x7b a.txt \x7d\x7d\" \"\x7b\x7b a.txt \x7d\x7d\"x\n".toList
      = some ("a".toList, "txt".toList, "\"\x7b\x7b a.txt \x7d\x7d\"".toList)
    ∧ (" x\n".toList
        = deleteOcc "\"\x7b\x7b a.txt \x7d\x7d\" \"\x7b\x7b a.txt \x7d\x7d\"x\n".toList
            "\"\x7b\x7b a.txt \x7d\x7d\"".toList
      ∧ "a.txt".toList = "a".toList ++ '.' :: "txt".toList) :=
  ⟨by decide, by decide,
    C2_remainder_removes_every_copy
      "\"\x7b\x7b a.txt \x7d\x7d\" \"\x7b\x7b a.txt \x7d\x7d\"x\n".toList
      "a".toList "txt".toList "\"\x7b\x7b a.txt \x7d\x7d\"".toList
      ⟨" x\n".toList, "a.txt".toList, 2⟩ (by decide) (by decide)⟩

/-- C5: a line in which the locator finds no placeholder is appended
unchanged, so a template none of whose lines match is reproduced
identically by the line-stream processor. -/
theorem C5_no_placeholder_identity (fs : FS) (root : List Char)
    (content : List (List Char))
    (h : ∀ l ∈ content, match_placeholder l = none) :
    generate_processed_content fs root content = .ok content := by
  induction content with
  | nil => rfl
  | cons a as ih =>
    rw [generate_processed_content, h a (List.mem_cons_self a as),
      ih (fun l hl => h l (List.mem_cons_of_mem a hl))]

/-- C5 witness at a concrete input: a two-line template with no
placeholder-shaped substring is returned unchanged. -/
theorem C5_no_placeholder_identity_witness :
    (∀ l ∈ ["key: value\n".toList, "other: 1\n".toList],
      match_placeholder l = none)
    ∧ generate_processed_content (fun _ => none) "d".toList
        ["key: value\n".toList, "other: 1\n".toList]
      = .ok ["key: value\n".toList, "other: 1\n".toList] :=
  ⟨by decide, C5_no_placeholder_identity _ _ _ (by decide)⟩

/-- C8: on every hit, the reported `indentation` equals the number of
leading whitespace characters of the line plus the constant 2. -/
theorem C8_indent_width (line : List Char) (m : PlaceholderMatch)
    (h : match_placeholder line = some m) :
    m.indentation = (line.takeWhile isPySpace).length + 2 := by
  rw [match_placeholder] at h
  cases hs : searchPH line with
  | none => rw [hs] at h; cases h
  | some v =>
    obtain ⟨n, e, ph⟩ := v
    rw [hs] at h
    cases h
    show line.length - (pyLstrip line).length + INDENTATION_SIZE
      = (line.takeWhile isPySpace).length + 2
    have hsum : (line.takeWhile isPySpace).length
        + (line.dropWhile isPySpace).length = line.length := by
      conv_rhs =>
        rw [← List.takeWhile_append_dropWhile (p := isPySpace) (l := line)]
      rw [List.length_append]
    rw [pyLstrip, INDENTATION_SIZE]
    omega

/-- C8 witness at a concrete input: a line with four leading spaces
yields `indentation = 4 + 2 = 6`. -/
theorem C8_indent_width_witness :
    match_placeholder "    - \"\x7b\x7b a.txt \x7d\x7d\"\n".toList
      = some ⟨"    - \n".toList, "a.txt".toList, 6⟩
    ∧ (6 : Nat)
      = ("    - \"\x7b\x7b a.txt \x7d\x7d\"\n".toList.takeWhile isPySpace).length
        + 2 :=
  ⟨by decide,
    C8_indent_width "    - \"\x7b\x7b a.txt \x7d\x7d\"\n".toList
      ⟨"    - \n".toList, "a.txt".toList, 6⟩ (by decide)⟩

/-- C3: for a multi-line referenced file whose extension is not yaml/yml,
the expander emits the remainder with its trailing newline replaced by a
bar and a newline, then every content line of the newline-repaired file,
each prefixed with exactly `indentation` spaces except whitespace-only
lines, which become a bare newline; every emitted content line — in
particular the final one, even when the source file lacked a trailing
newline — ends with a newline. -/
theorem C3_multiline_plain_block (fs : FS) (root name t raw : List Char)
    (ind : Nat)
    (ht : '\n' ∉ t)
    (hf : fs (os_path_join root name) = some raw)
    (h2 : 2 ≤ (linesKeep raw).length)
    (hnb : ¬ ∀ l ∈ linesKeep raw, pyStrip l = [])
    (hext : pyLower (file_extension name) ∉ yamlExts) :
    process_placeholder fs root name (t ++ ['\n']) ind
        = .ok ((t ++ ['|', '\n']) ::
            (fixLastNewline (linesKeep raw)).map (fun l =>
              if pyLstrip l = [] then ['\n'] else List.replicate ind ' ' ++ l))
    ∧ ∀ l ∈ (fixLastNewline (linesKeep raw)).map (fun l =>
          if pyLstrip l = [] then ['\n'] else List.replicate ind ' ' ++ l),
        l.getLast? = some '\n' := by
  constructor
  · rw [process_placeholder_multi_plain fs root name (t ++ ['\n']) raw ind
      hf h2 hnb hext, pyReplace_append '\n' t _ ht]
  · intro l hl
    rcases List.mem_map.mp hl with ⟨x, hx, rfl⟩
    exact formatted_getLast ind (fun l => pyLstrip l = []) x
      (linesKeep_fixLast_nl raw x hx)

/-- C3 witness at a concrete input: remainder `  - ` plus newline,
referenced file `items.txt` holding lines `a` and `b`, the second without
a trailing newline. -/
theorem C3_multiline_plain_block_witness :
    '\n' ∉ "  - ".toList
    ∧ (fun p => if p = "d/items.txt".toList then some "a\nb".toList else none)
        (os_path_join "d".toList "items.txt".toList) = some "a\nb".toList
    ∧ 2 ≤ (linesKeep "a\nb".toList).length
    ∧ (¬ ∀ l ∈ linesKeep "a\nb".toList, pyStrip l = [])
    ∧ pyLower (file_extension "items.txt".toList) ∉ yamlExts
    ∧ (process_placeholder
        (fun p => if p = "d/items.txt".toList then some "a\nb".toList else none)
        "d".toList "items.txt".toList ("  - ".toList ++ ['\n']) 4
        = .ok (("  - ".toList ++ ['|', '\n']) ::
            (fixLastNewline (linesKeep "a\nb".toList)).map (fun l =>
              if pyLstrip l = [] then ['\n'] else List.replicate 4 ' ' ++ l))
      ∧ ∀ l ∈ (fixLastNewline (linesKeep "a\nb".toList)).map (fun l =>
            if pyLstrip l = [] then ['\n'] else List.replicate 4 ' ' ++ l),
          l.getLast? = some '\n') :=
  ⟨by decide, by decide, by decide, by decide, by decide,
    C3_multiline_plain_block
      (fun p => if p = "d/items.txt".toList then some "a\nb".toList else none)
      "d".toList "items.txt".toList "  - ".toList "a\nb".toList 4
      (by decide) (by decide) (by decide) (by decide) (by decide)⟩

/-- C4: for a multi-line referenced file with a yaml/yml extension, the
expander emits the remainder unchanged (no bar marker) followed by the
newline-repaired content lines prefixed with `indentation` spaces (blank
lines becoming bare newlines), and the first content line is dropped
before indentation exactly when it is the document-start marker `---`
alone on its line. -/
theorem C4_yaml_drops_docstart (fs : FS) (root name r raw : List Char)
    (ind : Nat)
    (hf : fs (os_path_join root name) = some raw)
    (h2 : 2 ≤ (linesKeep raw).length)
    (hnb : ¬ ∀ l ∈ linesKeep raw, pyStrip l = [])
    (hext : pyLower (file_extension name) ∈ yamlExts) :
    process_placeholder fs root name r ind
      = .ok (r ::
          (if (linesKeep raw).head? = some ['-', '-', '-', '\n']
           then (fixLastNewline (linesKeep raw)).tail
           else fixLastNewline (linesKeep raw)).map (fun l =>
            if pyStrip l = [] then ['\n'] else List.replicate ind ' ' ++ l)) := by
  rw [process_placeholder_multi_yaml fs root name r raw ind hf h2 hnb hext,
    fixLastNewline_head (linesKeep raw) h2]

/-- C4 witness at a concrete input: the spec's own example — `spec.yaml`
starting with a document-start marker, spliced below `spec:`. -/
theorem C4_yaml_drops_docstart_witness :
    (fun p => if p = "d/spec.yaml".toList
        then some "---\nfoo: bar\nbaz: 1\n".toList else none)
        (os_path_join "d".toList "spec.yaml".toList)
      = some "---\nfoo: bar\nbaz: 1\n".toList
    ∧ 2 ≤ (linesKeep "---\nfoo: bar\nbaz: 1\n".toList).length
    ∧ (¬ ∀ l ∈ linesKeep "---\nfoo: bar\nbaz: 1\n".toList, pyStrip l = [])
    ∧ pyLower (file_extension "spec.yaml".toList) ∈ yamlExts
    ∧ process_placeholder
        (fun p => if p = "d/spec.yaml".toList
          then some "---\nfoo: bar\nbaz: 1\n".toList else none)
        "d".toList "spec.yaml".toList "spec:\n".toList 2
      = .ok ("spec:\n".toList ::
          (if (linesKeep "---\nfoo: bar\nbaz: 1\n".toList).head?
              = some ['-', '-', '-', '\n']
           then (fixLastNewline (linesKeep "---\nfoo: bar\nbaz: 1\n".toList)).tail
           else fixLastNewline (linesKeep "---\nfoo: bar\nbaz: 1\n".toList)).map
            (fun l =>
              if pyStrip l = [] then ['\n'] else List.replicate 2 ' ' ++ l)) :=
  ⟨by decide, by decide, by decide, by decide,
    C4_yaml_drops_docstart
      (fun p => if p = "d/spec.yaml".toList
        then some "---\nfoo: bar\nbaz: 1\n".toList else none)
      "d".toList "spec.yaml".toList "spec:\n".toList
      "---\nfoo: bar\nbaz: 1\n".toList 2
      (by decide) (by decide) (by decide) (by decide)⟩

/-- C6: expansion fails with the missing-file error exactly when the
resolved path does not exist in the file system, and with the distinct
empty-file error exactly when the path exists but its content has zero
lines or only whitespace lines; an existing whitespace-only file
therefore never yields a missing-file error and is never substituted
silently. -/
theorem C6_error_taxonomy (fs : FS) (root name r : List Char) (ind : Nat) :
    (process_placeholder fs root name r ind
        = .error (.fileNotFound (os_path_join root name))
      ↔ fs (os_path_join root name) = none)
    ∧ (process_placeholder fs root name r ind
        = .error (.emptyFile (os_path_join root name))
      ↔ ∃ raw, fs (os_path_join root name) = some raw
          ∧ (linesKeep raw = [] ∨ ∀ l ∈ linesKeep raw, pyStrip l = [])) := by
  rcases hfs : fs (os_path_join root name) with _ | raw
  · simp only [process_placeholder, read_file_content, hfs]
    simp
  · simp only [process_placeholder, read_file_content, hfs]
    by_cases hcond : linesKeep raw = [] ∨ ∀ l ∈ linesKeep raw, pyStrip l = []
    · rw [if_pos hcond]
      refine ⟨⟨fun h => absurd h (by simp), fun h => ?_⟩,
        ⟨fun _ => ⟨raw, rfl, hcond⟩, fun _ => rfl⟩⟩
      cases h
    · rw [if_neg hcond]
      refine ⟨⟨fun h => ?_, fun h => ?_⟩, ⟨fun h => ?_, fun h => ?_⟩⟩
      · exfalso
        split at h
        · cases h
        · split at h <;> cases h
      · cases h
      · exfalso
        split at h
        · cases h
        · split at h <;> cases h
      · rcases h with ⟨raw2, hraw2, hcond2⟩
        cases hraw2
        exact absurd hcond2 hcond

/-- C7: when any placeholder expansion in the template fails, the whole
run returns that error: with the successful result modelling the output
write, an aborted run writes nothing, and the write happens only after
every line has been processed. -/
theorem C7_failed_expansion_aborts (fs : FS)
    (source_dir target_dir raw : List Char) (e : CfnError)
    (hread : fs (os_path_join source_dir "template.yaml".toList) = some raw)
    (hgen : generate_processed_content fs source_dir (linesKeep raw)
      = .error e) :
    process_templates fs source_dir target_dir = .error e := by
  simp only [process_templates, read_file_content, hread, hgen]

/-- C7 witness at a concrete input: a template whose only placeholder
references a missing file; the run returns the missing-file error. -/
theorem C7_failed_expansion_aborts_witness :
    (fun p => if p = "src/template.yaml".toList
        then some "a: \"\x7b\x7b x.txt \x7d\x7d\"\n".toList else none)
        (os_path_join "src".toList "template.yaml".toList)
      = some "a: \"\x7b\x7b x.txt \x7d\x7d\"\n".toList
    ∧ generate_processed_content
        (fun p => if p = "src/template.yaml".toList
          then some "a: \"\x7b\x7b x.txt \x7d\x7d\"\n".toList else none)
        "src".toList (linesKeep "a: \"\x7b\x7b x.txt \x7d\x7d\"\n".toList)
      = .error (.fileNotFound "src/x.txt".toList)
    ∧ process_templates
        (fun p => if p = "src/template.yaml".toList
          then some "a: \"\x7b\x7b x.txt \x7d\x7d\"\n".toList else none)
        "src".toList "tgt".toList
      = .error (.fileNotFound "src/x.txt".toList) :=
  ⟨by decide, by rfl,
    C7_failed_expansion_aborts
      (fun p => if p = "src/template.yaml".toList
        then some "a: \"\x7b\x7b x.txt \x7d\x7d\"\n".toList else none)
      "src".toList "tgt".toList "a: \"\x7b\x7b x.txt \x7d\x7d\"\n".toList
      (.fileNotFound "src/x.txt".toList) (by decide) (by rfl)⟩

/-- C9: when the matched line lacks a trailing newline, the remainder
holds no newline and the newline-targeted splicing is a no-op: a
single-line referenced file yields the remainder unchanged with the
content silently dropped, and a multi-line non-yaml referenced file gets
no bar marker appended to the remainder. -/
theorem C9_unterminated_line_noop (fs : FS) (root name r raw : List Char)
    (ind : Nat)
    (hr : '\n' ∉ r)
    (hf : fs (os_path_join root name) = some raw) :
    (∀ l0, linesKeep raw = [l0] → pyStrip l0 ≠ [] →
        process_placeholder fs root name r ind = .ok [r])
    ∧ (2 ≤ (linesKeep raw).length →
        (¬ ∀ l ∈ linesKeep raw, pyStrip l = []) →
        pyLower (file_extension name) ∉ yamlExts →
        ∃ rest, process_placeholder fs root name r ind = .ok (r :: rest)) := by
  constructor
  · intro l0 hl hnb
    rw [process_placeholder_single fs root name r l0 ind raw hf hl hnb,
      pyReplace_not_mem '\n' r _ hr]
  · intro h2 hnb hext
    exact ⟨_, by
      rw [process_placeholder_multi_plain fs root name r raw ind hf h2 hnb hext,
        pyReplace_not_mem '\n' r _ hr]⟩

/-- C9 witness at a concrete input: remainder `b` with no terminator and a
single-line referenced file `X`; the expander returns `b` unchanged. -/
theorem C9_unterminated_line_noop_witness :
    '\n' ∉ "b".toList
    ∧ (fun p => if p = "d/f.txt".toList then some "X".toList else none)
        (os_path_join "d".toList "f.txt".toList) = some "X".toList
    ∧ ((∀ l0, linesKeep "X".toList = [l0] → pyStrip l0 ≠ [] →
          process_placeholder
            (fun p => if p = "d/f.txt".toList then some "X".toList else none)
            "d".toList "f.txt".toList "b".toList 2 = .ok ["b".toList])
      ∧ (2 ≤ (linesKeep "X".toList).length →
          (¬ ∀ l ∈ linesKeep "X".toList, pyStrip l = []) →
          pyLower (file_extension "f.txt".toList) ∉ yamlExts →
          ∃ rest, process_placeholder
            (fun p => if p = "d/f.txt".toList then some "X".toList else none)
            "d".toList "f.txt".toList "b".toList 2
            = .ok ("b".toList :: rest))) :=
  ⟨by decide, by decide,
    C9_unterminated_line_noop
      (fun p => if p = "d/f.txt".toList then some "X".toList else none)
      "d".toList "f.txt".toList "b".toList "X".toList 2
      (by decide) (by decide)⟩

/-- C10: for every multi-line expansion, yaml or not, each emitted content
line ends with a newline character — the last-line newline repair runs
before either formatting branch. -/
theorem C10_content_lines_end_newline (fs : FS) (root name r raw : List Char)
    (ind : Nat)
    (hf : fs (os_path_join root name) = some raw)
    (h2 : 2 ≤ (linesKeep raw).length)
    (hnb : ¬ ∀ l ∈ linesKeep raw, pyStrip l = []) :
    ∃ first rest, process_placeholder fs root name r ind = .ok (first :: rest)
      ∧ ∀ l ∈ rest, l.getLast? = some '\n' := by
  by_cases hext : pyLower (file_extension name) ∈ yamlExts
  · refine ⟨r, _,
      process_placeholder_multi_yaml fs root name r raw ind hf h2 hnb hext, ?_⟩
    intro l hl
    rcases List.mem_map.mp hl with ⟨x, hx, rfl⟩
    have hxmem : x ∈ fixLastNewline (linesKeep raw) := by
      by_cases hc : (fixLastNewline (linesKeep raw)).head?
          = some ['-', '-', '-', '\n']
      · rw [if_pos hc] at hx
        exact List.mem_of_mem_tail hx
      · rw [if_neg hc] at hx
        exact hx
    exact formatted_getLast ind (fun l => pyStrip l = []) x
      (linesKeep_fixLast_nl raw x hxmem)
  · refine ⟨pyReplace r ['\n'] ['|', '\n'], _,
      process_placeholder_multi_plain fs root name r raw ind hf h2 hnb hext, ?_⟩
    intro l hl
    rcases List.mem_map.mp hl with ⟨x, hx, rfl⟩
    exact formatted_getLast ind (fun l => pyLstrip l = []) x
      (linesKeep_fixLast_nl raw x hx)

/-- C10 witness at a concrete input: a yaml referenced file whose last
line lacks a trailing newline. -/
theorem C10_content_lines_end_newline_witness :
    (fun p => if p = "d/part.yaml".toList
        then some "foo: bar\nbaz: 1".toList else none)
        (os_path_join "d".toList "part.yaml".toList)
      = some "foo: bar\nbaz: 1".toList
    ∧ 2 ≤ (linesKeep "foo: bar\nbaz: 1".toList).length
    ∧ (¬ ∀ l ∈ linesKeep "foo: bar\nbaz: 1".toList, pyStrip l = [])
    ∧ ∃ first rest,
        process_placeholder
          (fun p => if p = "d/part.yaml".toList
            then some "foo: bar\nbaz: 1".toList else none)
          "d".toList "part.yaml".toList "spec:\n".toList 2
          = .ok (first :: rest)
        ∧ ∀ l ∈ rest, l.getLast? = some '\n' :=
  ⟨by decide, by decide, by decide,
    C10_content_lines_end_newline
      (fun p => if p = "d/part.yaml".toList
        then some "foo: bar\nbaz: 1".toList else none)
      "d".toList "part.yaml".toList "spec:\n".toList
      "foo: bar\nbaz: 1".toList 2
      (by decide) (by decide) (by decide)⟩

end Cfngen
